import Mathlib

/-!
Shallow embedding of the kcd_farkle_solver sources (src/farkle.rs, src/hash.rs,
src/optimal.rs).

Modelling conventions:
- Machine integers (u8, u32, usize) are modelled as Nat.  On the supported
  domain of the program (histograms drawn from at most six physical dice,
  scores clamped to [0, 5950]) none of the Rust integer arithmetic can
  overflow, so Nat is exact there.
- f32 probabilities and expected values are modelled as exact rationals.
- Fixed-size arrays ([T; 6]) are modelled as lists of length six; the
  functions walk them slot by slot exactly as the Rust loops do.
- The dense PerfectHashMap containers are modelled as total functions from
  the hash index (a Nat) to the stored value; a cell fill that the source
  performs through iter_mut (which pairs index k with the decoded key
  from_perfhash(k)) is modelled as a function of k that decodes k the same
  way, and a lookup of key x reads index to_perfhash(x).
-/

/-- DiceSide (farkle.rs): the face of a die, 0 = One .. 5 = Six. -/
abbrev DiceSide := Fin 6

/-- DiceSide::from(u8) (farkle.rs): 0..4 map to One..Five, 5 and anything
larger map to Six. -/
def sideOfNat (v : Nat) : DiceSide := ⟨min v 5, by omega⟩

/-- Dice (farkle.rs): the per-face probabilities of one die. -/
def Dice := DiceSide → ℚ

/-- Dice::default() (farkle.rs): the fair die. -/
def fairDice : Dice := fun _ => 1 / 6

/-- DiceSetSample.sample (farkle.rs): six slots, none meaning the die was
missing from the roll. -/
abbrev Sample := List (Option DiceSide)

/-- DiceSetSample::default(): all six slots absent. -/
def emptySample : Sample := List.replicate 6 none

/-- DiceSetSample::present() (farkle.rs): the faces of the occupied slots,
in slot order. -/
def present (s : Sample) : List DiceSide := s.filterMap id

/-- DiceSetSample::present_mask() (farkle.rs): which slots are occupied. -/
def presentMask (s : Sample) : List Bool := s.map (fun o => o.isSome)

/-- count_sides (farkle.rs): histogram of face occurrences, index i holding
the count of face i+1. -/
def countSides (sides : List DiceSide) : List Nat :=
  sides.foldl (fun acc side => acc.set side.val (acc.getD side.val 0 + 1))
    (List.replicate 6 0)

/-- The score the loop body of highest_multi (farkle.rs) computes for a face
with count >= 3: base 1000 for face one, otherwise 100 times the face value,
doubled once per die beyond the third. -/
def candScore (side count : Nat) : Nat :=
  (if side = 1 then 1000 else side * 100) * 2 ^ (count - 3)

/-- The (side, count) pairs the loop of highest_multi (farkle.rs) visits:
faces with count >= 3, in ascending face order, side reported 1-based. -/
def multiCands (h : List Nat) : List (Nat × Nat) :=
  h.enum.filterMap (fun ic => if 3 ≤ ic.2 then some (ic.1 + 1, ic.2) else none)

/-- The accumulation loop of highest_multi (farkle.rs): strict-greater
update, so the first face reaching the running maximum is kept. -/
def highestMultiGo : Nat × Nat × Nat → List (Nat × Nat) → Nat × Nat × Nat
  | b, [] => b
  | b, p :: rest =>
      highestMultiGo
        (if candScore p.1 p.2 > b.2.2 then (p.1, p.2, candScore p.1 p.2) else b) rest

/-- highest_multi (farkle.rs): the best (side, count, score) among faces with
three or more occurrences, (0, 0, 0) when no face qualifies. -/
def highestMulti (h : List Nat) : Nat × Nat × Nat :=
  highestMultiGo (0, 0, 0) (multiCands h)

/-- occurances[side - 1] -= count, as in the multi branch of the scoring
loops (farkle.rs). -/
def decAt (h : List Nat) (i : Nat) (k : Nat) : List Nat := h.set i (h.getD i 0 - k)

/-- The consumption loop of score (farkle.rs, score): a fuel-indexed version
of the Rust loop.  Every iteration that does not break consumes at least one
die, so any fuel of at least (total count + 1) runs the loop to its break;
the callers below pass exactly that.  Returns the leftover histogram and the
accumulated points. -/
def scoreGo : Nat → List Nat → Nat → List Nat × Nat
  | 0, h, acc => (h, acc)
  | fuel + 1, [a, b, c, d, e, f], acc =>
      if 1 ≤ a ∧ 1 ≤ b ∧ 1 ≤ c ∧ 1 ≤ d ∧ 1 ≤ e ∧ 1 ≤ f then
        scoreGo fuel [a - 1, b - 1, c - 1, d - 1, e - 1, f - 1] (acc + 1500)
      else if 1 ≤ b ∧ 1 ≤ c ∧ 1 ≤ d ∧ 1 ≤ e ∧ 1 ≤ f then
        scoreGo fuel [a, b - 1, c - 1, d - 1, e - 1, f - 1] (acc + 750)
      else if 1 ≤ a ∧ 1 ≤ b ∧ 1 ≤ c ∧ 1 ≤ d ∧ 1 ≤ e then
        scoreGo fuel [a - 1, b - 1, c - 1, d - 1, e - 1, f] (acc + 500)
      else if (highestMulti [a, b, c, d, e, f]).1 = 0 then
        if 1 ≤ a then scoreGo fuel [a - 1, b, c, d, e, f] (acc + 100)
        else if 1 ≤ e then scoreGo fuel [a, b, c, d, e - 1, f] (acc + 50)
        else ([a, b, c, d, e, f], acc)
      else
        scoreGo fuel
          (decAt [a, b, c, d, e, f] ((highestMulti [a, b, c, d, e, f]).1 - 1)
            (highestMulti [a, b, c, d, e, f]).2.1)
          (acc + (highestMulti [a, b, c, d, e, f]).2.2)
  | _, h, acc => (h, acc)

/-- The consumption loop of best_score (farkle.rs, best_score); in the source
it is textually the same loop as in score. -/
def bestScoreGo : Nat → List Nat → Nat → List Nat × Nat
  | 0, h, acc => (h, acc)
  | fuel + 1, [a, b, c, d, e, f], acc =>
      if 1 ≤ a ∧ 1 ≤ b ∧ 1 ≤ c ∧ 1 ≤ d ∧ 1 ≤ e ∧ 1 ≤ f then
        bestScoreGo fuel [a - 1, b - 1, c - 1, d - 1, e - 1, f - 1] (acc + 1500)
      else if 1 ≤ b ∧ 1 ≤ c ∧ 1 ≤ d ∧ 1 ≤ e ∧ 1 ≤ f then
        bestScoreGo fuel [a, b - 1, c - 1, d - 1, e - 1, f - 1] (acc + 750)
      else if 1 ≤ a ∧ 1 ≤ b ∧ 1 ≤ c ∧ 1 ≤ d ∧ 1 ≤ e then
        bestScoreGo fuel [a - 1, b - 1, c - 1, d - 1, e - 1, f] (acc + 500)
      else if (highestMulti [a, b, c, d, e, f]).1 = 0 then
        if 1 ≤ a then bestScoreGo fuel [a - 1, b, c, d, e, f] (acc + 100)
        else if 1 ≤ e then bestScoreGo fuel [a, b, c, d, e - 1, f] (acc + 50)
        else ([a, b, c, d, e, f], acc)
      else
        bestScoreGo fuel
          (decAt [a, b, c, d, e, f] ((highestMulti [a, b, c, d, e, f]).1 - 1)
            (highestMulti [a, b, c, d, e, f]).2.1)
          (acc + (highestMulti [a, b, c, d, e, f]).2.2)
  | _, h, acc => (h, acc)

/-- The consumption loop of best_selection (farkle.rs, best_selection): the
same loop again, with no point accumulator; only the leftover histogram is
kept. -/
def selGo : Nat → List Nat → List Nat
  | 0, h => h
  | fuel + 1, [a, b, c, d, e, f] =>
      if 1 ≤ a ∧ 1 ≤ b ∧ 1 ≤ c ∧ 1 ≤ d ∧ 1 ≤ e ∧ 1 ≤ f then
        selGo fuel [a - 1, b - 1, c - 1, d - 1, e - 1, f - 1]
      else if 1 ≤ b ∧ 1 ≤ c ∧ 1 ≤ d ∧ 1 ≤ e ∧ 1 ≤ f then
        selGo fuel [a, b - 1, c - 1, d - 1, e - 1, f - 1]
      else if 1 ≤ a ∧ 1 ≤ b ∧ 1 ≤ c ∧ 1 ≤ d ∧ 1 ≤ e then
        selGo fuel [a - 1, b - 1, c - 1, d - 1, e - 1, f]
      else if (highestMulti [a, b, c, d, e, f]).1 = 0 then
        if 1 ≤ a then selGo fuel [a - 1, b, c, d, e, f]
        else if 1 ≤ e then selGo fuel [a, b, c, d, e - 1, f]
        else [a, b, c, d, e, f]
      else
        selGo fuel
          (decAt [a, b, c, d, e, f] ((highestMulti [a, b, c, d, e, f]).1 - 1)
            (highestMulti [a, b, c, d, e, f]).2.1)
  | _, h => h

/-- score (farkle.rs): run the consumption loop; if any dice are left
unconsumed the hand is invalid and the score is forced to 0, otherwise the
accumulated total is returned. -/
def score (h : List Nat) : Nat :=
  let r := scoreGo (h.sum + 1) h 0
  if r.1 = [0, 0, 0, 0, 0, 0] then r.2 else 0

/-- best_score (farkle.rs): the same loop, the total returned regardless of
leftover dice. -/
def bestScore (h : List Nat) : Nat := (bestScoreGo (h.sum + 1) h 0).2

/-- not_busted (farkle.rs): can this histogram score at all?  The same
guards as the consumption loop, in the source order; the two single-face
checks run only when the highest_multi check reports the none sentinel
(side 0), as in the source fall-through. -/
def notBusted (h : List Nat) : Bool :=
  match h with
  | [a, b, c, d, e, f] =>
      if 1 ≤ a ∧ 1 ≤ b ∧ 1 ≤ c ∧ 1 ≤ d ∧ 1 ≤ e ∧ 1 ≤ f then true
      else if 1 ≤ b ∧ 1 ≤ c ∧ 1 ≤ d ∧ 1 ≤ e ∧ 1 ≤ f then true
      else if 1 ≤ a ∧ 1 ≤ b ∧ 1 ≤ c ∧ 1 ≤ d ∧ 1 ≤ e then true
      else if (highestMulti [a, b, c, d, e, f]).1 = 0 then
        if 1 ≤ a then true else if 1 ≤ e then true else false
      else true
  | _ => false

/-- The removal loop at the end of best_selection (farkle.rs lines 449-456)
for one face: scan the slots in order; a slot holding that face is set to
none, and the scan stops right after the first removal when the leftover
count is 0.  The count is never decremented by the source loop, so with a
nonzero count every matching slot is cleared. -/
def clearSide : Sample → DiceSide → Nat → Sample
  | [], _, _ => []
  | none :: rest, sd, c => none :: clearSide rest sd c
  | some x :: rest, sd, c =>
      if x = sd then none :: (if c = 0 then rest else clearSide rest sd c)
      else some x :: clearSide rest sd c

/-- best_selection (farkle.rs): run the consumption loop on the histogram of
the present dice, then walk the six faces in ascending order clearing the
left-over dice from a copy of the sample. -/
def bestSelection (s : Sample) : Sample :=
  let occ := selGo ((countSides (present s)).sum + 1) (countSides (present s))
  (List.range 6).foldl (fun out i => clearSide out (sideOfNat i) (occ.getD i 0)) s

/-- The loop body of DiceSetSample::iter_selections (farkle.rs): walk the
slots; every present slot consumes one bit of the counter and is set to none
exactly when that bit is 1. -/
def clearByBits : Sample → Nat → Sample
  | [], _ => []
  | none :: rest, v => none :: clearByBits rest v
  | some s :: rest, v =>
      (if v % 2 ≠ 0 then none else some s) :: clearByBits rest (v / 2)

/-- DiceSetSample::iter_selections (farkle.rs): the counter runs over
1 .. 2^n - 1 for the n present slots. -/
def iterSelections (s : Sample) : List Sample :=
  (List.range' 1 (2 ^ (s.countP (fun o => o.isSome)) - 1)).map (clearByBits s)

/-- The loop body of DiceSet::iter_outcomes (farkle.rs): walk the mask and
the dice together; each active slot takes the next base-6 digit of the
counter as its face and multiplies that face's probability into the joint
probability. -/
def outcomesGo : List (Bool × Dice) → Nat → Sample × ℚ
  | [], _ => ([], 1)
  | (false, _) :: rest, i =>
      let r := outcomesGo rest i
      (none :: r.1, r.2)
  | (true, d) :: rest, i =>
      let r := outcomesGo rest (i / 6)
      (some (sideOfNat (i % 6)) :: r.1, d (sideOfNat (i % 6)) * r.2)

/-- DiceSet::iter_outcomes (farkle.rs): all 6^k face assignments of the k
active dice, paired with their joint probabilities. -/
def iterOutcomes (dices : List Dice) (mask : List Bool) : List (Sample × ℚ) :=
  (List.range (6 ^ mask.count true)).map (fun i => outcomesGo (mask.zip dices) i)

/-- DiceSet::complement (farkle.rs): invert the selection mask. -/
def complementMask (m : List Bool) : List Bool := m.map (fun b => !b)

/-- The loop body of DiceSet::iter_subsets (farkle.rs): the counter bits are
spread over the active positions of the mask, bit 1 meaning retained. -/
def spreadBits : List Bool → Nat → List Bool
  | [], _ => []
  | false :: rest, v => false :: spreadBits rest v
  | true :: rest, v => (v % 2 != 0) :: spreadBits rest (v / 2)

/-- DiceSet::iter_subsets (farkle.rs): counters 1 .. 2^k - 1 over the k
active positions. -/
def iterSubsets (mask : List Bool) : List (List Bool) :=
  (List.range' 1 (2 ^ mask.count true - 1)).map (spreadBits mask)

/-- The slot contribution of DiceSetSample::to_perfhash (hash.rs): side + 1
for a present slot, 0 for an absent one. -/
def slotVal : Option DiceSide → Nat
  | none => 0
  | some s => s.val + 1

/-- DiceSetSample::to_perfhash (hash.rs): slot i contributes its slot value
times 7^i. -/
def sampleToHash (s : Sample) : Nat :=
  (s.enum.map (fun io => slotVal io.2 * 7 ^ io.1)).sum

/-- DiceSetSample::from_perfhash (hash.rs): peel base-7 digits; digit 0 is an
absent slot, and a nonzero digit i is decoded through DiceSide::from(i) -
exactly as the source does, feeding the 1-based digit to the 0-based
DiceSide::from. -/
def sampleFromHash : Nat → Nat → Sample
  | 0, _ => []
  | k + 1, n =>
      (if n % 7 = 0 then none else some (sideOfNat (n % 7))) :: sampleFromHash k (n / 7)

/-- to_perfhash of a [bool; 6] mask (hash.rs): bit i contributes 2^i. -/
def maskToHash (m : List Bool) : Nat :=
  (m.enum.map (fun ib => (cond ib.2 1 0) * 2 ^ ib.1)).sum

/-- from_perfhash of a [bool; 6] mask (hash.rs): peel base-2 digits. -/
def maskFromHash : Nat → Nat → List Bool
  | 0, _ => []
  | k + 1, n => (n % 2 != 0) :: maskFromHash k (n / 2)

/-- FarkleScore::to_perfhash (hash.rs): the width-50 bucket index. -/
def scoreToHash (p : Nat) : Nat := p / 50

/-- FarkleScore::from_perfhash (hash.rs): bucket index times 50. -/
def scoreFromHash (h : Nat) : Nat := h * 50

/-- Row-major pair hash (hash.rs, impl for (T1, T2)) for a
(FarkleScore, [bool; 6]) key: score hash times 64 plus the mask hash. -/
def pairIndexSM (p : Nat) (m : List Bool) : Nat := scoreToHash p * 64 + maskToHash m

/-- Row-major pair hash (hash.rs) for a (FarkleScore, DiceSetSample) key:
score hash times 7^6 plus the sample hash. -/
def pairIndexSH (p : Nat) (s : Sample) : Nat := scoreToHash p * 7 ^ 6 + sampleToHash s

/-- The all-inactive dice mask. -/
def falseMask6 : List Bool := List.replicate 6 false

/-- The all-active dice mask. -/
def trueMask6 : List Bool := List.replicate 6 true

/-- OptimalStrat (optimal.rs): the solver state.  The dense tables are
modelled as total functions from the perfect-hash index. -/
structure OptimalStrat where
  expected_scores : Nat → ℚ
  expected_hold : Nat → ℚ × Sample
  dices : List Dice
  bust_prob : Nat → ℚ
  n : Nat

/-- One assignment of the wrap loop of OptimalStrat::new / ::iterate
(optimal.rs): the cell of (p, no dice) is overwritten with the current value
of the cell of (p, all dice). -/
def wrapStep (acc : Nat → ℚ) (p : Nat) : Nat → ℚ :=
  Function.update acc (pairIndexSM p falseMask6) (acc (pairIndexSM p trueMask6))

/-- The wrap loop of OptimalStrat::new / ::iterate (optimal.rs): for every
decoded score bucket p in hash order, set table[(p, [false; 6])] :=
table[(p, [true; 6])]. -/
def applyWrap (t : Nat → ℚ) : Nat → ℚ :=
  ((List.range 120).map scoreFromHash).foldl wrapStep t

/-- OptimalStrat::generate_busting_probabilities (optimal.rs): for every
non-empty subset mask of the full dice set, the probability mass of the
outcomes that bust; then the wrap rule over the mask domain. -/
def bustProbTable (dices : List Dice) : Nat → ℚ :=
  let filled :=
    (iterSubsets trueMask6).foldl
      (fun acc m =>
        Function.update acc (maskToHash m)
          ((iterOutcomes dices m).foldl
            (fun bp sp => if notBusted (countSides (present sp.1)) then bp else bp + sp.2) 0))
      (fun _ => 0)
  Function.update filled (maskToHash falseMask6) (filled (maskToHash trueMask6))

/-- The cell computation of OptimalStrat::new (optimal.rs) for the decoded
key of index k: probability-weighted best_score over the outcomes of the
selected dice, minus the expected bust loss. -/
def newRaw (dices : List Dice) (bp : Nat → ℚ) (k : Nat) : ℚ :=
  let p := scoreFromHash (k / 64)
  let mask := maskFromHash 6 (k % 64)
  let loss : ℚ := (p : ℚ) * bp (maskToHash mask)
  let gain : ℚ :=
    (iterOutcomes dices mask).foldl
      (fun acc sp => acc + sp.2 * (bestScore (countSides (present sp.1)) : ℚ)) 0
  gain - loss

/-- OptimalStrat::new (optimal.rs): the Optimal_1 tables. -/
def newStrat (dices : List Dice) : OptimalStrat :=
  let bp := bustProbTable dices
  { expected_scores := applyWrap (newRaw dices bp)
    expected_hold := fun _ => (0, emptySample)
    dices := dices
    bust_prob := bp
    n := 1 }

/-- The cell computation of OptimalStrat::iterate_hold (optimal.rs) for score
p and sample, over the previous generation's score table S: fold over the
enumerated selections, skipping those whose exact score is 0; a valid
selection is worth its score plus the score table at the clamped new score
and the complement of the selection's present mask; a strictly greater total
replaces the best so far, which starts at (0, default sample). -/
def holdCellBody (S : Nat → ℚ) (dices : List Dice) (p : Nat) (sample : Sample) :
    ℚ × Sample :=
  (iterSelections sample).foldl
    (fun best sel =>
      let selScore := score (countSides (present sel))
      if selScore = 0 then best
      else
        let unselected := complementMask (presentMask sel)
        let optimalScore := S (pairIndexSM (min (p + selScore) 5950) unselected)
        let total := (selScore : ℚ) + optimalScore
        if total > best.1 then (total, sel) else best)
    (0, emptySample)

/-- The cell computation of OptimalStrat::iterate (optimal.rs) for the
decoded key of index k: probability-weighted maximum of the terminate payoff
and the hold payoff, minus the expected bust loss.  The hold payoff is read
from the hold table at the encoded (p, sample) index. -/
def iterRaw (prev : OptimalStrat) (hold : Nat → ℚ × Sample) (k : Nat) : ℚ :=
  let p := scoreFromHash (k / 64)
  let mask := maskFromHash 6 (k % 64)
  let loss : ℚ := (p : ℚ) * prev.bust_prob (maskToHash mask)
  let gain : ℚ :=
    (iterOutcomes prev.dices mask).foldl
      (fun acc sp =>
        let terminate : ℚ := (bestScore (countSides (present sp.1)) : ℚ)
        let holdVal := (hold (pairIndexSH p sp.1)).1
        acc + sp.2 * max terminate holdVal) 0
  gain - loss

/-- OptimalStrat::iterate (optimal.rs): build the new hold table from the
previous generation (each cell computed for the decoded key of its index),
then the new score table, then the wrap rule. -/
def iterateStrat (prev : OptimalStrat) : OptimalStrat :=
  let hold : Nat → ℚ × Sample := fun k =>
    holdCellBody prev.expected_scores prev.dices
      (scoreFromHash (k / 7 ^ 6)) (sampleFromHash 6 (k % 7 ^ 6))
  { expected_scores := applyWrap (iterRaw prev hold)
    expected_hold := hold
    dices := prev.dices
    bust_prob := prev.bust_prob
    n := prev.n + 1 }

/-- A sample holding a single One in the first slot. -/
def sampleOne : Sample := [some 0, none, none, none, none, none]

/-- A sample holding a single Two in the first slot. -/
def sampleTwo : Sample := [some 1, none, none, none, none, none]

/-- A sample holding a single Five in the first slot. -/
def sampleFive : Sample := [some 4, none, none, none, none, none]

/-- Comparison definition for the highest_multi claim, following the spec
words: among the qualifying candidates pick the maximum-scoring one, ties
resolved in favour of the first-encountered face in ascending order; a later
candidate replaces an earlier one only when strictly greater. -/
def firstMaxTriple : Nat × Nat × Nat → List (Nat × Nat × Nat) → Nat × Nat × Nat
  | c, [] => c
  | c, d :: rest =>
      let r := firstMaxTriple d rest
      if r.2.2 > c.2.2 then r else c

/-- The qualifying candidates with their claim-formula scores: faces with
count >= 3, score base 1000 for face 1 and 100 times the face value
otherwise, doubled once per die beyond the third. -/
def specCands (h : List Nat) : List (Nat × Nat × Nat) :=
  (multiCands h).map (fun p => (p.1, p.2, candScore p.1 p.2))

/-- Comparison definition for the highest_multi claim: the first-encountered
maximum-scoring candidate, or the (0, 0, 0) sentinel when no face has three
or more occurrences. -/
def specHighestMulti (h : List Nat) : Nat × Nat × Nat :=
  match specCands h with
  | [] => (0, 0, 0)
  | c :: rest => firstMaxTriple c rest

/-! ### Lemmas and claim theorems -/

/-- Claim C1: the perfect-hash round-trip on the 7^6 DiceSetSample domain is
not exact.  Encoding the sample holding a single One gives hash 1, and
decoding hash 1 yields the sample holding a single Two, because
from_perfhash feeds the 1-based digit into the 0-based DiceSide::from. -/
theorem hash_sample_roundtrip_fails :
    sampleFromHash 6 (sampleToHash sampleOne) = sampleTwo ∧ sampleTwo ≠ sampleOne := by
  constructor
  · rfl
  · decide

/-- Claim C2: iter_selections on a sample with one present die yields exactly
one selection, and that selection is the empty sample, not the unique
non-empty subset: setting a counter bit clears the slot, so the counters
1 .. 2^p - 1 enumerate the proper subsets (including the empty one) and never
the full sample. -/
theorem iter_selections_single_die_empty :
    iterSelections sampleOne = [emptySample] ∧ present emptySample = [] ∧
      sampleOne ≠ emptySample := by
  refine ⟨rfl, rfl, by decide⟩

/-- Claim C3: best_selection on a sample holding a single One returns the
empty sample even though the best-scoring hand consists of that single One
(best_score of its histogram is 100): the removal loop clears one die of a
face even when that face's leftover count is 0. -/
theorem best_selection_drops_used_die :
    bestSelection sampleOne = emptySample ∧
      bestScore (countSides (present sampleOne)) = 100 ∧ sampleOne ≠ emptySample := by
  refine ⟨rfl, rfl, by decide⟩

/-- Claim C4: the hold-table cell does not consider every non-empty selection
of the present dice.  With an all-zero previous score table, score bucket 0
and a sample holding a single Five, the only enumerated selection is the
empty sample (discarded for scoring 0), so the cell stores (0, default
sample), although the non-empty selection consisting of the Five scores 50
and would give the candidate 50 + 0. -/
theorem hold_cell_misses_full_selection :
    holdCellBody (fun _ => 0) (List.replicate 6 fairDice) 0 sampleFive = (0, emptySample) ∧
      iterSelections sampleFive = [emptySample] ∧
      score (countSides (present sampleFive)) = 50 := by
  refine ⟨rfl, rfl, rfl⟩

/-- The consumption loops of score and best_score are the same loop (they
are textually identical in the source); the two functions differ only in
the final leftover check. -/
theorem scoreGo_eq_bestScoreGo : ∀ (fuel : Nat) (h : List Nat) (acc : Nat),
    scoreGo fuel h acc = bestScoreGo fuel h acc := by
  intro fuel
  induction fuel with
  | zero => intro h acc; rfl
  | succ n ih =>
    intro h acc
    match h with
    | [] => rfl
    | [a] => rfl
    | [a, b] => rfl
    | [a, b, c] => rfl
    | [a, b, c, d] => rfl
    | [a, b, c, d, e] => rfl
    | a :: b :: c :: d :: e :: f :: g :: rest => rfl
    | [a, b, c, d, e, f] =>
      show scoreGo (n + 1) [a, b, c, d, e, f] acc = bestScoreGo (n + 1) [a, b, c, d, e, f] acc
      simp only [scoreGo, bestScoreGo]
      split_ifs <;> first | rfl | exact ih _ _

/-- The accumulator of the consumption loop never decreases. -/
theorem bestScoreGo_mono : ∀ (fuel : Nat) (h : List Nat) (acc : Nat),
    acc ≤ (bestScoreGo fuel h acc).2 := by
  intro fuel
  induction fuel with
  | zero => intro h acc; exact Nat.le_refl acc
  | succ n ih =>
    intro h acc
    match h with
    | [] => exact Nat.le_refl acc
    | [a] => exact Nat.le_refl acc
    | [a, b] => exact Nat.le_refl acc
    | [a, b, c] => exact Nat.le_refl acc
    | [a, b, c, d] => exact Nat.le_refl acc
    | [a, b, c, d, e] => exact Nat.le_refl acc
    | a :: b :: c :: d :: e :: f :: g :: rest => exact Nat.le_refl acc
    | [a, b, c, d, e, f] =>
      show acc ≤ (bestScoreGo (n + 1) [a, b, c, d, e, f] acc).2
      simp only [bestScoreGo]
      split_ifs <;>
        first
          | exact Nat.le_refl acc
          | exact Nat.le_trans (Nat.le_add_right acc _) (ih _ _)

/-- Claim C6: the exact-mode score is the accumulated total of the greedy
loop exactly when the loop consumes every die and is forced to 0 whenever
dice remain unconsumed, while best_score returns the accumulated total
regardless of leftovers; in particular score [0,2,1,0,0,0] = 0,
score [1,1,1,1,1,1] = 1500, best_score [1,2,1,0,0,0] = 100 and
score [1,2,1,0,0,0] = 0. -/
theorem score_modes_spec :
    (∀ a b c d e f : Nat,
      score [a, b, c, d, e, f] =
        if (scoreGo ([a, b, c, d, e, f].sum + 1) [a, b, c, d, e, f] 0).1 = [0, 0, 0, 0, 0, 0]
        then bestScore [a, b, c, d, e, f] else 0) ∧
    score [0, 2, 1, 0, 0, 0] = 0 ∧
    score [1, 1, 1, 1, 1, 1] = 1500 ∧
    bestScore [1, 2, 1, 0, 0, 0] = 100 ∧
    score [1, 2, 1, 0, 0, 0] = 0 := by
  refine ⟨fun a b c d e f => ?_, rfl, rfl, rfl, rfl⟩
  show (if (scoreGo ([a, b, c, d, e, f].sum + 1) [a, b, c, d, e, f] 0).1 = [0, 0, 0, 0, 0, 0]
        then (scoreGo ([a, b, c, d, e, f].sum + 1) [a, b, c, d, e, f] 0).2 else 0) = _
  rw [scoreGo_eq_bestScoreGo]
  rfl

/-- Claim C10: on any six-face histogram the exact-mode score is either 0 or
exactly the best-effort score, hence never larger. -/
theorem score_le_best_score (a b c d e f : Nat)
    (hsum : a + b + c + d + e + f ≤ 6) :
    (score [a, b, c, d, e, f] = 0 ∨ score [a, b, c, d, e, f] = bestScore [a, b, c, d, e, f]) ∧
      score [a, b, c, d, e, f] ≤ bestScore [a, b, c, d, e, f] := by
  have hE : score [a, b, c, d, e, f] =
      if (scoreGo ([a, b, c, d, e, f].sum + 1) [a, b, c, d, e, f] 0).1 = [0, 0, 0, 0, 0, 0]
      then bestScore [a, b, c, d, e, f] else 0 := by
    show (if (scoreGo ([a, b, c, d, e, f].sum + 1) [a, b, c, d, e, f] 0).1 = [0, 0, 0, 0, 0, 0]
          then (scoreGo ([a, b, c, d, e, f].sum + 1) [a, b, c, d, e, f] 0).2 else 0) = _
    rw [scoreGo_eq_bestScoreGo]
    rfl
  rw [hE]
  split_ifs with hc
  · exact ⟨Or.inr rfl, Nat.le_refl _⟩
  · exact ⟨Or.inl rfl, Nat.zero_le _⟩

/-- Witness for score_le_best_score at the histogram of one 1, two 2s and
one 3. -/
theorem score_le_best_score_witness :
    1 + 2 + 1 + 0 + 0 + 0 ≤ 6 ∧
      ((score [1, 2, 1, 0, 0, 0] = 0 ∨ score [1, 2, 1, 0, 0, 0] = bestScore [1, 2, 1, 0, 0, 0]) ∧
        score [1, 2, 1, 0, 0, 0] ≤ bestScore [1, 2, 1, 0, 0, 0]) :=
  ⟨by decide, score_le_best_score 1 2 1 0 0 0 (by decide)⟩

/-- One fold step of the spec-side maximum against an accumulated best is
the same as taking the spec-side maximum first and comparing it with the
accumulated best afterwards. -/
theorem firstMaxTriple_shift (M : List (Nat × Nat × Nat)) (c b : Nat × Nat × Nat) :
    firstMaxTriple (if c.2.2 > b.2.2 then c else b) M =
      (if (firstMaxTriple c M).2.2 > b.2.2 then firstMaxTriple c M else b) := by
  match M with
  | [] =>
    by_cases hcb : c.2.2 > b.2.2 <;> simp [firstMaxTriple, hcb]
  | d :: rest =>
    simp only [firstMaxTriple]
    by_cases hcb : c.2.2 > b.2.2 <;>
      by_cases hr2c : (firstMaxTriple d rest).2.2 > c.2.2 <;>
        simp only [if_pos, if_neg, hcb, hr2c, if_true, if_false] <;>
          split_ifs <;> first | rfl | omega

/-- The strict-greater accumulation loop of highest_multi computes the
first-encountered maximum of the candidate triples. -/
theorem highestMultiGo_eq_firstMax : ∀ (L : List (Nat × Nat)) (b : Nat × Nat × Nat),
    highestMultiGo b L =
      firstMaxTriple b (L.map (fun p => (p.1, p.2, candScore p.1 p.2))) := by
  intro L
  induction L with
  | nil => intro b; rfl
  | cons p rest ih =>
    intro b
    show highestMultiGo
        (if candScore p.1 p.2 > b.2.2 then (p.1, p.2, candScore p.1 p.2) else b) rest = _
    rw [ih]
    rw [firstMaxTriple_shift (rest.map (fun p => (p.1, p.2, candScore p.1 p.2)))
      (p.1, p.2, candScore p.1 p.2) b]
    rfl

/-- The spec-side maximum picks one of the candidates it is given. -/
theorem firstMaxTriple_mem (M : List (Nat × Nat × Nat)) :
    ∀ c, firstMaxTriple c M ∈ c :: M := by
  induction M with
  | nil => intro c; exact List.mem_singleton.mpr rfl
  | cons d rest ih =>
    intro c
    show (if (firstMaxTriple d rest).2.2 > c.2.2 then firstMaxTriple d rest else c) ∈ _
    split_ifs
    · exact List.mem_cons_of_mem c (ih d)
    · exact List.mem_cons_self c _

/-- Every qualifying candidate has a positive score and a 1-based face. -/
theorem specCands_pos (h : List Nat) : ∀ x ∈ specCands h, 0 < x.2.2 ∧ 1 ≤ x.1 := by
  intro x hx
  rcases List.mem_map.mp hx with ⟨p, hp, rfl⟩
  rcases List.mem_filterMap.mp hp with ⟨ic, _, hic⟩
  by_cases h3 : 3 ≤ ic.2
  · rw [if_pos h3] at hic
    rcases Option.some_injective _ hic with rfl
    refine ⟨?_, Nat.le_add_left 1 ic.1⟩
    show 0 < candScore (ic.1 + 1) ic.2
    unfold candScore
    split_ifs <;> positivity
  · rw [if_neg h3] at hic
    exact absurd hic (Option.noConfusion)

/-- highest_multi agrees with the spec-side description everywhere. -/
theorem highestMulti_eq_spec (h : List Nat) : highestMulti h = specHighestMulti h := by
  show highestMultiGo (0, 0, 0) (multiCands h) = _
  rw [highestMultiGo_eq_firstMax]
  show firstMaxTriple (0, 0, 0) (specCands h) = _
  unfold specHighestMulti
  cases hc : specCands h with
  | nil => rfl
  | cons c rest =>
    show (if (firstMaxTriple c rest).2.2 > 0 then firstMaxTriple c rest else (0, 0, 0)) = _
    have hmem : firstMaxTriple c rest ∈ specCands h := by
      rw [hc]; exact firstMaxTriple_mem rest c
    have hpos := (specCands_pos h _ hmem).1
    rw [if_pos hpos]

/-- highest_multi is either the none sentinel or one of its candidates. -/
theorem highestMulti_cases (h : List Nat) :
    highestMulti h = (0, 0, 0) ∨ highestMulti h ∈ specCands h := by
  rw [highestMulti_eq_spec]
  unfold specHighestMulti
  cases hc : specCands h with
  | nil => exact Or.inl rfl
  | cons c rest =>
    right
    exact firstMaxTriple_mem rest c

/-- When highest_multi reports a face, its score component is positive. -/
theorem highestMulti_snd_pos (h : List Nat) (hne : (highestMulti h).1 ≠ 0) :
    0 < (highestMulti h).2.2 := by
  rcases highestMulti_cases h with h0 | hmem
  · rw [h0] at hne
    exact absurd rfl hne
  · exact (specCands_pos h _ hmem).1

/-- Claim C7: highest_multi considers exactly the faces with count at least
three, scores each 1000 (face one) or 100 times the face value doubled once
per die beyond the third, returns the maximum with ties resolved in favour
of the first face in ascending order and the (0, 0, 0) sentinel when no face
qualifies; consequently score [3,0,0,0,0,0] = 1000, score [4,0,0,0,0,0]
= 2000 and score [5,0,0,0,0,0] = 4000. -/
theorem highest_multi_spec :
    (∀ h : List Nat, highestMulti h = specHighestMulti h) ∧
      score [3, 0, 0, 0, 0, 0] = 1000 ∧
      score [4, 0, 0, 0, 0, 0] = 2000 ∧
      score [5, 0, 0, 0, 0, 0] = 4000 :=
  ⟨highestMulti_eq_spec, rfl, rfl, rfl⟩

/-- Unfolding of not_busted on an explicit six-entry histogram. -/
theorem notBusted_eq (a b c d e f : Nat) :
    notBusted [a, b, c, d, e, f] =
      (if 1 ≤ a ∧ 1 ≤ b ∧ 1 ≤ c ∧ 1 ≤ d ∧ 1 ≤ e ∧ 1 ≤ f then true
       else if 1 ≤ b ∧ 1 ≤ c ∧ 1 ≤ d ∧ 1 ≤ e ∧ 1 ≤ f then true
       else if 1 ≤ a ∧ 1 ≤ b ∧ 1 ≤ c ∧ 1 ≤ d ∧ 1 ≤ e then true
       else if (highestMulti [a, b, c, d, e, f]).1 = 0 then
         if 1 ≤ a then true else if 1 ≤ e then true else false
       else true) := rfl

/-- When not_busted reports a bust, no rule of the consumption loop applies,
so best_score is 0. -/
theorem bestScore_zero_of_not_busted_false (a b c d e f : Nat)
    (hnb : notBusted [a, b, c, d, e, f] = false) :
    bestScore [a, b, c, d, e, f] = 0 := by
  show (bestScoreGo ([a, b, c, d, e, f].sum + 1) [a, b, c, d, e, f] 0).2 = 0
  rw [notBusted_eq] at hnb
  simp only [bestScoreGo]
  split_ifs at hnb ⊢ with h1 h2 h3 h4 h5 h6 <;> rfl

/-- When not_busted holds, the first applicable rule of the consumption loop
contributes a positive amount, and the accumulator never decreases. -/
theorem not_busted_pos (a b c d e f : Nat)
    (hnb : notBusted [a, b, c, d, e, f] = true) :
    0 < bestScore [a, b, c, d, e, f] := by
  show 0 < (bestScoreGo ([a, b, c, d, e, f].sum + 1) [a, b, c, d, e, f] 0).2
  rw [notBusted_eq] at hnb
  simp only [bestScoreGo]
  split_ifs at hnb ⊢ with h1 h2 h3 h4 h5 h6 <;>
    first
      | exact absurd hnb (by decide)
      | exact Nat.lt_of_lt_of_le (by omega) (bestScoreGo_mono _ _ _)
      | exact Nat.lt_of_lt_of_le
          (Nat.add_pos_right 0 (highestMulti_snd_pos [a, b, c, d, e, f] (by assumption)))
          (bestScoreGo_mono _ _ _)

/-- Claim C9: on histograms of at most six dice, not_busted holds exactly
when the best-effort scorer can extract a positive score. -/
theorem not_busted_iff_best_score_pos (a b c d e f : Nat)
    (hsum : a + b + c + d + e + f ≤ 6) :
    (notBusted [a, b, c, d, e, f] = true ↔ 0 < bestScore [a, b, c, d, e, f]) := by
  constructor
  · exact not_busted_pos a b c d e f
  · intro hpos
    cases hb : notBusted [a, b, c, d, e, f] with
    | false =>
      rw [bestScore_zero_of_not_busted_false a b c d e f hb] at hpos
      exact absurd hpos (by omega)
    | true => rfl

/-- Witness for not_busted_iff_best_score_pos at the single face-1
histogram. -/
theorem not_busted_iff_best_score_pos_witness :
    1 + 0 + 0 + 0 + 0 + 0 ≤ 6 ∧
      (notBusted [1, 0, 0, 0, 0, 0] = true ↔ 0 < bestScore [1, 0, 0, 0, 0, 0]) :=
  ⟨by decide, not_busted_iff_best_score_pos 1 0 0 0 0 0 (by decide)⟩

/-- The sample produced by the outcome loop is present exactly at the
positions the mask marks active. -/
theorem outcomesGo_mask : ∀ (mask : List Bool) (dices : List Dice) (i : Nat),
    mask.length = dices.length →
    ((outcomesGo (mask.zip dices) i).1).map Option.isSome = mask := by
  intro mask
  induction mask with
  | nil => intro dices i _; rfl
  | cons b bs ih =>
    intro dices i hlen
    cases dices with
    | nil => exact absurd hlen (by simp)
    | cons d ds =>
      have hlen2 : bs.length = ds.length := by simpa using hlen
      cases b with
      | false =>
        show (none :: (outcomesGo (bs.zip ds) i).1).map Option.isSome = false :: bs
        simp only [List.map_cons, Option.isSome_none]
        rw [ih ds i hlen2]
      | true =>
        show (some (sideOfNat (i % 6)) :: (outcomesGo (bs.zip ds) (i / 6)).1).map
            Option.isSome = true :: bs
        simp only [List.map_cons, Option.isSome_some]
        rw [ih ds (i / 6) hlen2]

/-- The probability produced by the outcome loop is the product, over the
slots, of the corresponding die's probability for the assigned face (an
absent slot contributing the neutral factor 1). -/
theorem outcomesGo_prob : ∀ (mask : List Bool) (dices : List Dice) (i : Nat),
    mask.length = dices.length →
    (outcomesGo (mask.zip dices) i).2 =
      (List.zipWith (fun (d : Dice) (o : Option DiceSide) => o.elim 1 d)
        dices (outcomesGo (mask.zip dices) i).1).prod := by
  intro mask
  induction mask with
  | nil =>
    intro dices i hlen
    cases dices with
    | nil => rfl
    | cons d ds => exact absurd hlen (by simp)
  | cons b bs ih =>
    intro dices i hlen
    cases dices with
    | nil => exact absurd hlen (by simp)
    | cons d ds =>
      have hlen2 : bs.length = ds.length := by simpa using hlen
      cases b with
      | false =>
        show (outcomesGo (bs.zip ds) i).2 =
          (List.zipWith (fun (d : Dice) (o : Option DiceSide) => o.elim 1 d)
            (d :: ds) (none :: (outcomesGo (bs.zip ds) i).1)).prod
        rw [List.zipWith_cons_cons, List.prod_cons]
        rw [ih ds i hlen2]
        show _ = 1 * _
        rw [one_mul]
      | true =>
        show d (sideOfNat (i % 6)) * (outcomesGo (bs.zip ds) (i / 6)).2 =
          (List.zipWith (fun (d : Dice) (o : Option DiceSide) => o.elim 1 d)
            (d :: ds) (some (sideOfNat (i % 6)) :: (outcomesGo (bs.zip ds) (i / 6)).1)).prod
        rw [List.zipWith_cons_cons, List.prod_cons]
        rw [ih ds (i / 6) hlen2]
        rfl

/-- The number of present slots of a sample is the number of true entries of
its present mask. -/
theorem present_length : ∀ s : Sample,
    (present s).length = (s.map Option.isSome).count true := by
  intro s
  induction s with
  | nil => rfl
  | cons o rest ih =>
    cases o with
    | none =>
      show (present rest).length = ((false : Bool) :: rest.map Option.isSome).count true
      rw [List.count_cons]
      simpa using ih
    | some x =>
      show (present rest).length + 1 = ((true : Bool) :: rest.map Option.isSome).count true
      rw [List.count_cons]
      simpa using ih

/-- Claim C8: for a mask with k active dice, iter_outcomes yields exactly
6^k outcomes; every outcome's sample is present exactly at the active
positions (hence has exactly k present slots) and carries the joint
probability equal to the product of the corresponding dice's per-face
probabilities for the assigned faces. -/
theorem iter_outcomes_spec (dices : List Dice) (mask : List Bool)
    (hd : dices.length = 6) (hm : mask.length = 6) :
    (iterOutcomes dices mask).length = 6 ^ mask.count true ∧
    ∀ sp ∈ iterOutcomes dices mask,
      sp.1.map Option.isSome = mask ∧
      (present sp.1).length = mask.count true ∧
      sp.2 = (List.zipWith (fun (d : Dice) (o : Option DiceSide) => o.elim 1 d)
        dices sp.1).prod := by
  have hlen : mask.length = dices.length := by omega
  constructor
  · simp [iterOutcomes]
  · intro sp hsp
    rcases List.mem_map.mp hsp with ⟨i, _, rfl⟩
    refine ⟨outcomesGo_mask mask dices i hlen, ?_, outcomesGo_prob mask dices i hlen⟩
    rw [present_length, outcomesGo_mask mask dices i hlen]

/-- Witness for iter_outcomes_spec with six fair dice, all active. -/
theorem iter_outcomes_spec_witness :
    (List.replicate 6 fairDice).length = 6 ∧ trueMask6.length = 6 ∧
    ((iterOutcomes (List.replicate 6 fairDice) trueMask6).length = 6 ^ trueMask6.count true ∧
      ∀ sp ∈ iterOutcomes (List.replicate 6 fairDice) trueMask6,
        sp.1.map Option.isSome = trueMask6 ∧
        (present sp.1).length = trueMask6.count true ∧
        sp.2 = (List.zipWith (fun (d : Dice) (o : Option DiceSide) => o.elim 1 d)
          (List.replicate 6 fairDice) sp.1).prod) :=
  ⟨rfl, rfl, iter_outcomes_spec (List.replicate 6 fairDice) trueMask6 rfl rfl⟩

/-- The hash of the all-inactive mask is 0. -/
theorem maskToHash_falseMask6 : maskToHash falseMask6 = 0 := rfl

/-- The hash of the all-active mask is 63. -/
theorem maskToHash_trueMask6 : maskToHash trueMask6 = 63 := rfl

/-- The wrap loop writes only cells whose mask component is the no-dice
mask, so every cell with mask hash 63 keeps its pre-loop value. -/
theorem wrapFold_fix63 : ∀ (ps : List Nat) (t : Nat → ℚ) (j : Nat), j % 64 = 63 →
    ps.foldl wrapStep t j = t j := by
  intro ps
  induction ps with
  | nil => intro t j hj; rfl
  | cons p rest ih =>
    intro t j hj
    show rest.foldl wrapStep (wrapStep t p) j = t j
    rw [ih (wrapStep t p) j hj]
    unfold wrapStep pairIndexSM scoreToHash
    rw [maskToHash_falseMask6]
    refine Function.update_noteq ?_ _ _
    omega

/-- A no-dice cell of a bucket that the wrap loop never writes keeps its
pre-loop value. -/
theorem wrapFold_keep : ∀ (ps : List Nat) (t : Nat → ℚ) (b : Nat),
    (∀ q ∈ ps, q / 50 ≠ b) → ps.foldl wrapStep t (b * 64) = t (b * 64) := by
  intro ps
  induction ps with
  | nil => intro t b _; rfl
  | cons p rest ih =>
    intro t b hq
    show rest.foldl wrapStep (wrapStep t p) (b * 64) = t (b * 64)
    rw [ih (wrapStep t p) b (fun q hmem => hq q (List.mem_cons_of_mem p hmem))]
    unfold wrapStep pairIndexSM scoreToHash
    rw [maskToHash_falseMask6]
    refine Function.update_noteq ?_ _ _
    have hp := hq p (List.mem_cons_self p rest)
    omega

/-- After the wrap loop runs over a list of scores with pairwise distinct
buckets, the no-dice cell of any visited score holds the pre-loop value of
that bucket's all-dice cell. -/
theorem wrapFold_set : ∀ (ps : List Nat) (t : Nat → ℚ) (p0 : Nat), p0 ∈ ps →
    (ps.map (fun q => q / 50)).Nodup →
    ps.foldl wrapStep t (p0 / 50 * 64) = t (p0 / 50 * 64 + 63) := by
  intro ps
  induction ps with
  | nil => intro t p0 hmem _; exact absurd hmem (List.not_mem_nil p0)
  | cons p rest ih =>
    intro t p0 hmem hnd
    rcases List.nodup_cons.mp hnd with ⟨hnotin, hnd2⟩
    by_cases hb : p / 50 = p0 / 50
    · show rest.foldl wrapStep (wrapStep t p) (p0 / 50 * 64) = t (p0 / 50 * 64 + 63)
      rw [wrapFold_keep rest (wrapStep t p) (p0 / 50) ?_]
      · unfold wrapStep pairIndexSM scoreToHash
        rw [maskToHash_falseMask6, maskToHash_trueMask6, hb]
        have hsimp : p0 / 50 * 64 + 0 = p0 / 50 * 64 := by omega
        rw [hsimp, Function.update_same]
      · intro q hmem2 hq
        apply hnotin
        have hqp : q / 50 = p / 50 := by rw [hb]; exact hq
        show p / 50 ∈ List.map (fun q => q / 50) rest
        rw [← hqp]
        exact List.mem_map.mpr ⟨q, hmem2, rfl⟩
    · have hmem2 : p0 ∈ rest := by
        rcases List.mem_cons.mp hmem with h2 | h2
        · exact absurd (by rw [h2]) hb
        · exact h2
      show rest.foldl wrapStep (wrapStep t p) (p0 / 50 * 64) = t (p0 / 50 * 64 + 63)
      rw [ih (wrapStep t p) p0 hmem2 hnd2]
      unfold wrapStep pairIndexSM scoreToHash
      rw [maskToHash_falseMask6]
      refine Function.update_noteq ?_ _ _
      omega

/-- The wrap loop equalises the no-dice and the all-dice cell of every score
below 6000, for any pre-loop table content. -/
theorem applyWrap_wrap (t : Nat → ℚ) (P : Nat) (hP : P < 6000) :
    applyWrap t (pairIndexSM P falseMask6) = applyWrap t (pairIndexSM P trueMask6) := by
  have hidx_true : pairIndexSM P trueMask6 % 64 = 63 := by
    unfold pairIndexSM scoreToHash
    rw [maskToHash_trueMask6]
    omega
  unfold applyWrap
  rw [wrapFold_fix63 _ t _ hidx_true]
  have h0 : pairIndexSM P falseMask6 = scoreFromHash (P / 50) / 50 * 64 := by
    unfold pairIndexSM scoreToHash scoreFromHash
    rw [maskToHash_falseMask6]
    omega
  rw [h0]
  rw [wrapFold_set _ t (scoreFromHash (P / 50))
    (List.mem_map.mpr ⟨P / 50, List.mem_range.mpr (by omega), rfl⟩) ?_]
  · congr 1
    unfold pairIndexSM scoreToHash scoreFromHash
    rw [maskToHash_trueMask6]
    omega
  · rw [List.map_map]
    have hcomp : ((fun q => q / 50) ∘ scoreFromHash) = id := by
      funext h
      show scoreFromHash h / 50 = h
      unfold scoreFromHash
      omega
    rw [hcomp, List.map_id]
    exact List.nodup_range 120

/-- Claim C5: both for the table produced by new and for the table produced
by iterate, every score bucket's no-dice cell equals its all-dice cell (the
wrap rule: exhausting all dice restarts a fresh six-dice roll). -/
theorem wrap_rule_holds (dices : List Dice) (prev : OptimalStrat) (P : Fin 6000) :
    (newStrat dices).expected_scores (pairIndexSM P falseMask6) =
      (newStrat dices).expected_scores (pairIndexSM P trueMask6) ∧
    (iterateStrat prev).expected_scores (pairIndexSM P falseMask6) =
      (iterateStrat prev).expected_scores (pairIndexSM P trueMask6) :=
  ⟨applyWrap_wrap _ P P.isLt, applyWrap_wrap _ P P.isLt⟩
